import Mathlib

/-!
# Verification development for the vibeplay control loop

Shallow embedding of the decision engine, reply parsing, history, suggestion
queue, retry logic and control loop of `vibeplay.py` and
`claude_controlled_pokemon.py`.  Python strings are modelled as `List Char`;
each definition mirrors the corresponding Python source construct.
-/

set_option maxRecDepth 8192

/-- Characters of a string literal (Python `str` values as `List Char`). -/
def str (s : String) : List Char := s.data

/-! ## Python string primitives -/

/-- Split at the first occurrence of `pat`: returns the part strictly before the
first occurrence and the part strictly after it (Python `s.split(pat)[0]` and
the text following the first occurrence).  `none` when `pat` does not occur. -/
def splitFirst (pat : List Char) : List Char → Option (List Char × List Char)
  | [] => if pat = [] then some ([], []) else none
  | c :: rest =>
    if pat.isPrefixOf (c :: rest) then some ([], (c :: rest).drop pat.length)
    else (splitFirst pat rest).map (fun p => (c :: p.1, p.2))

/-- Python `pat in s` (substring containment). -/
def containsSub (pat s : List Char) : Bool := (splitFirst pat s).isSome

/-- Python `s.split(pat)[1]`: the segment after the first occurrence of `pat`
and before the second occurrence (or the end).  Callers in the source only
evaluate this after a successful `pat in s` test, so the `none` fallback is
never reached there. -/
def segAfterFirst (pat s : List Char) : List Char :=
  match splitFirst pat s with
  | none => []
  | some (_, after) =>
    match splitFirst pat after with
    | none => after
    | some (before2, _) => before2

/-- Python `s.split('\n')` (keeps empty pieces, `"" → [""]`). -/
def pyLines : List Char → List (List Char)
  | [] => [[]]
  | c :: s =>
    if c = '\n' then [] :: pyLines s
    else
      match pyLines s with
      | [] => [[c]]
      | l :: ls => (c :: l) :: ls

/-- Join lines with `'\n'`; left inverse of `pyLines` on newline-free lines. -/
def joinLines : List (List Char) → List Char
  | [] => []
  | [l] => l
  | l :: ls => l ++ '\n' :: joinLines ls

/-- Python `s.lower()` (ASCII). -/
def pyLower (s : List Char) : List Char := s.map Char.toLower

/-- Python `s.strip()`: whitespace removed from both ends. -/
def pyStrip (s : List Char) : List Char :=
  ((s.dropWhile Char.isWhitespace).reverse.dropWhile Char.isWhitespace).reverse

/-- Bracket characters stripped by Python `s.strip('[]')`. -/
def isBracket (c : Char) : Bool := c = '[' || c = ']'

/-- Python `s.strip('[]')`: leading and trailing `[`/`]` characters removed. -/
def stripBrackets (s : List Char) : List Char :=
  ((s.dropWhile isBracket).reverse.dropWhile isBracket).reverse

/-- Python `s.split()` (split on whitespace runs, no empty tokens), via an
accumulator holding the current token reversed. -/
def wsSplitAux : List Char → List Char → List (List Char)
  | [], acc => if acc = [] then [] else [acc.reverse]
  | c :: s, acc =>
    if Char.isWhitespace c then
      if acc = [] then wsSplitAux s [] else acc.reverse :: wsSplitAux s []
    else wsSplitAux s (c :: acc)

/-- Python `s.split()`. -/
def wsSplit (s : List Char) : List (List Char) := wsSplitAux s []

/-- The single-character replacement `s.replace("'", '"')`. -/
def quoteRepl (c : Char) : Char := if c = '\'' then '"' else c

/-! ## Model of `eval` on a bracketed list of string literals

`vibeplay.py` line 545 runs `eval` on the cleaned-up action string, inside a
`try` whose handler falls back to the default.  We model the fragment of
`eval` that the decision-line grammar produces: a bracketed, comma-separated
sequence of double-quoted string literals (single quotes were already replaced
by double quotes at this point).  Any input outside this grammar is treated as
the `eval` exception path and maps to `none`; the source catches that
exception and returns the default sequence. -/

/-- Parser state for `evalListAux`. -/
inductive EvalSt where
  | afterOpen | afterComma | inStr | afterStr | afterClose
deriving DecidableEq

/-- One-pass automaton over the characters after the opening `[`.
`cur` is the current string literal reversed, `acc` the items reversed. -/
def evalListAux : EvalSt → List Char → List Char → List (List Char) → Option (List (List Char))
  | st, [], _, acc => if st = EvalSt.afterClose then some acc.reverse else none
  | st, c :: rest, cur, acc =>
    match st with
    | EvalSt.afterOpen =>
      if Char.isWhitespace c then evalListAux EvalSt.afterOpen rest cur acc
      else if c = '"' then evalListAux EvalSt.inStr rest [] acc
      else if c = ']' then evalListAux EvalSt.afterClose rest [] acc
      else none
    | EvalSt.afterComma =>
      if Char.isWhitespace c then evalListAux EvalSt.afterComma rest cur acc
      else if c = '"' then evalListAux EvalSt.inStr rest [] acc
      else none
    | EvalSt.inStr =>
      if c = '"' then evalListAux EvalSt.afterStr rest [] (cur.reverse :: acc)
      else evalListAux EvalSt.inStr rest (c :: cur) acc
    | EvalSt.afterStr =>
      if Char.isWhitespace c then evalListAux EvalSt.afterStr rest cur acc
      else if c = ',' then evalListAux EvalSt.afterComma rest cur acc
      else if c = ']' then evalListAux EvalSt.afterClose rest cur acc
      else none
    | EvalSt.afterClose =>
      if Char.isWhitespace c then evalListAux EvalSt.afterClose rest cur acc
      else none

/-- Model of `eval` restricted to list-of-string literals (see section note). -/
def evalPyList (s : List Char) : Option (List (List Char)) :=
  match s.dropWhile Char.isWhitespace with
  | '[' :: rest => evalListAux EvalSt.afterOpen rest [] []
  | _ => none

/-! ## The sequence-mode reply parser (`vibeplay.py` lines 528-558) -/

/-- The list `valid_actions` (both source files, identical). -/
def valid_actions : List (List Char) :=
  [str "up", str "down", str "left", str "right", str "a", str "b",
   str "start", str "select", str "wait"]

/-- The sequence-mode decision marker, matched case-sensitively against the
raw response text (`"Action Sequence:" in line`, `vibeplay.py` line 535). -/
def seq_marker : List Char := str "Action Sequence:"

/-- Reply parsing of `ask_claude_for_action` (`vibeplay.py` lines 528-558):
collect the lines containing the marker, take the last one, cut the text after
the marker, strip, replace single quotes, strip outer brackets, re-wrap and
`eval`; validate every token.  Returns the pair the source returns: the action
list and the full response text on success, `(["wait"], None)` otherwise. -/
def parse_action_sequence (response_text : List Char) :
    List (List Char) × Option (List Char) :=
  match ((pyLines response_text).filter (fun l => containsSub seq_marker l)).getLast? with
  | none => ([str "wait"], none)
  | some action_line =>
    match evalPyList ('[' ::
        (stripBrackets ((pyStrip (segAfterFirst seq_marker action_line)).map quoteRepl)
          ++ [']'])) with
    | none => ([str "wait"], none)
    | some action_list =>
      if action_list.all (fun a => valid_actions.contains a) then
        (action_list, some response_text)
      else ([str "wait"], none)

/-! ## The single-action extractor (`claude_controlled_pokemon.py` 131-164) -/

/-- The list `action_indicators` (line 139). -/
def action_indicators : List (List Char) :=
  [str "action:", str "chosen action:", str "selected action:", str "recommended action:"]

/-- One line of the structured scan: if the indicator occurs in the line, take
the text after it, strip it, whitespace-split, and return the first member of
`valid_actions` (in that fixed order) occurring among the tokens. -/
def line_action (ind l : List Char) : Option (List Char) :=
  if containsSub ind l then
    valid_actions.find? (fun a => (wsSplit (pyStrip (segAfterFirst ind l))).contains a)
  else none

/-- The `for line in response_lower.split('\n')` loop: first line that yields
an action for this indicator. -/
def search_lines (ind : List Char) : List (List Char) → Option (List Char)
  | [] => none
  | l :: ls =>
    match line_action ind l with
    | some a => some a
    | none => search_lines ind ls

/-- The `for indicator in action_indicators` loop, with the source's
`if indicator in response_lower` guard. -/
def first_indicator_hit (lower : List Char) (lines : List (List Char)) :
    List (List Char) → Option (List Char)
  | [] => none
  | ind :: inds =>
    match (if containsSub ind lower then search_lines ind lines else none) with
    | some a => some a
    | none => first_indicator_hit lower lines inds

/-- Model of `_extract_action_from_response`: lowercase the reply, try the structured
indicators, then fall back to scanning the whole lowered text for any valid
action as a substring (first match in `valid_actions` order), else `"wait"`. -/
def extract_action_from_response (response_text : List Char) : List Char :=
  match first_indicator_hit (pyLower response_text) (pyLines (pyLower response_text))
      action_indicators with
  | some a => a
  | none =>
    match valid_actions.find? (fun a => containsSub a (pyLower response_text)) with
    | some a => a
    | none => str "wait"

/-! ## Decision history (`vibeplay.py` 714-717, `claude_controlled_pokemon.py` 247-249) -/

/-- One insertion: `decision_history.append(d)` followed by
`if len(decision_history) > 10: decision_history.pop(0)`. -/
def record_decision (history : List (List Char)) (d : List Char) : List (List Char) :=
  if 10 < (history ++ [d]).length then (history ++ [d]).tail else history ++ [d]

/-! ## Policy-call models with retry

The external policy call either returns a reply text, raises a transient
error (`overloaded_error`/`529` for the Anthropic client,
`rate_limit_exceeded`/`server_error` for the OpenAI client), or raises some
other exception. -/

/-- Outcome of one API attempt, indexed by attempt number. -/
inductive PolicyOutcome where
  | reply (text : List Char)
  | overloaded
  | otherError
deriving DecidableEq

/-- Constant `max_retries = 3` (`vibeplay.py` line 355). -/
def max_retries_vp : Nat := 3

/-- Constant `base_delay = 2` (`vibeplay.py` line 356). -/
def base_delay_vp : Nat := 2

/-- Result of one logical `ask_claude_for_action` request.  `result` would be
`Except.error ()` if an exception escaped the function; the development below
proves this never happens — even at the recursion limit the `RecursionError`
fires inside the deepest invocation's `try` block (whose body pushes further
frames for the client constructor, `screen_to_base64` and the request itself
before any point in the handler can), is caught by that invocation's own
`except Exception`, is not classified as transient, and resolves to the
default, which each suspended ancestor passes back as its return value.
`delays` are the backoff sleeps performed in order, `attempts` the number of
API requests issued, `queue` the suggestion queue after the call. -/
structure VPCallResult where
  result : Except Unit (List (List Char) × Option (List Char))
  delays : List Nat
  attempts : Nat
  queue : List (List Char)

/-- Model of `ask_claude_for_action` (`vibeplay.py` 347-574).  The missing-key check
precedes everything; `get_current_suggestion()` (line 383) removes the queue
head before the API request; on a transient failure the *local* `retry_count`
(re-initialised to `0` on every call, line 354) is incremented once, the
backoff `base_delay * 2 ** (retry_count - 1)` is slept, and the function
recurses (line 569), which consumes another suggestion.  `fuel` is the
remaining Python recursion budget: at `fuel = 0` the recursive call at once
exceeds the recursion limit inside its own `try` (before consuming a
suggestion or issuing a request), its `except Exception` handler does not
match `overloaded_error`/`529`, and it returns the `(["wait"], None)`
default, which the ancestors return unchanged. -/
def ask_claude_for_action (key_set : Bool) (outcomes : Nat → PolicyOutcome) :
    Nat → List (List Char) → Nat → VPCallResult
  | idx, queue, fuel =>
    if key_set = false then ⟨Except.ok ([str "wait"], none), [], 0, queue⟩
    else
      let queue' := queue.tail
      match outcomes idx with
      | PolicyOutcome.reply text =>
        ⟨Except.ok (parse_action_sequence text), [], 1, queue'⟩
      | PolicyOutcome.otherError =>
        ⟨Except.ok ([str "wait"], none), [], 1, queue'⟩
      | PolicyOutcome.overloaded =>
        let retry_count := 1
        if retry_count ≤ max_retries_vp then
          let delay := base_delay_vp * 2 ^ (retry_count - 1)
          match fuel with
          | 0 => ⟨Except.ok ([str "wait"], none), [delay], 1, queue'⟩
          | fuel' + 1 =>
            let r := ask_claude_for_action key_set outcomes (idx + 1) queue' fuel'
            ⟨r.result, delay :: r.delays, r.attempts + 1, r.queue⟩
        else ⟨Except.ok ([str "wait"], none), [], 1, queue'⟩

/-- Constant `self.max_retries = 3` (`claude_controlled_pokemon.py` line 40). -/
def max_retries_cc : Nat := 3

/-- Constant `self.base_delay = 2` (`claude_controlled_pokemon.py` line 41). -/
def base_delay_cc : Nat := 2

/-- Result of one logical `call_ai_api` request: the returned action
(`Except.error ()` only on recursion-budget exhaustion, which the bounded
instance counter makes unreachable for adequate `fuel`), the backoff delays,
the attempts, the final `self.retry_count` and the decision history. -/
structure CCallResult where
  action : Except Unit (List Char)
  delays : List Nat
  attempts : Nat
  retry_count : Nat
  history : List (List Char)

/-- Model of `call_ai_api` (`claude_controlled_pokemon.py` 190-270).  Unlike the
vibeplay variant, the retry counter is the *instance* field
`self.retry_count`, threaded through the recursive retry call and reset to
`0` on a successful reply; a nonempty reply is appended to the history. -/
def call_ai_api (key_set : Bool) (outcomes : Nat → PolicyOutcome) :
    Nat → Nat → List (List Char) → Nat → CCallResult
  | idx, retry_count, history, fuel =>
    if key_set = false then ⟨Except.ok (str "wait"), [], 0, retry_count, history⟩
    else
      match outcomes idx with
      | PolicyOutcome.reply text =>
        let action := extract_action_from_response text
        let history' := if text = [] then history else record_decision history text
        ⟨Except.ok action, [], 1, 0, history'⟩
      | PolicyOutcome.otherError =>
        ⟨Except.ok (str "wait"), [], 1, retry_count, history⟩
      | PolicyOutcome.overloaded =>
        let rc := retry_count + 1
        if rc ≤ max_retries_cc then
          let delay := base_delay_cc * 2 ^ (rc - 1)
          match fuel with
          | 0 => ⟨Except.error (), [delay], 1, rc, history⟩
          | fuel' + 1 =>
            let r := call_ai_api key_set outcomes (idx + 1) rc history fuel'
            ⟨r.action, delay :: r.delays, r.attempts + 1, r.retry_count, r.history⟩
        else ⟨Except.ok (str "wait"), [], 1, rc, history⟩

/-! ## Startup checks of the two `main` entry points -/

set_option linter.unusedVariables false in
/-- Gate conditions before the control loop in `vibeplay.py main()` (612-679):
the ROM must exist and a requested state file must load; the API credential is
*not* consulted anywhere before the loop starts (`key_set` is unused, exactly
as in the source). -/
def vp_main_enters_loop (key_set rom_exists load_state_requested load_state_ok : Bool) : Bool :=
  rom_exists && (!load_state_requested || load_state_ok)

/-- Gate conditions before the gameplay loop in
`claude_controlled_pokemon.py main()` (302-341): a missing `OPENAI_API_KEY`
returns before the AI is even constructed; then `start_game()` must succeed. -/
def ccp_main_enters_loop (key_set start_game_ok : Bool) : Bool :=
  key_set && start_game_ok

/-! ## The control loop (`vibeplay.py main()`, 678-734)

State machine of the tick loop.  `in_flight` counts outstanding
`make_api_call` threads (a modelling device; the source variable is the
`pending_api_call` flag, set in the main thread before the thread is spawned
and cleared in the thread's `finally`).  A tick either only advances the
frame, or — on a qualifying frame with no pending call — dispatches a
decision request (sequence exhausted) or executes the next queued action.
Completion of the dispatched call installs its result atomically (the whole
action-consuming block is guarded by `not pending_api_call`, so the loop
never reads the sequence while the thread rewrites it) and clears the flag.
The decision history is omitted from the state: no claim about the loop
mentions it, and its update operation is `record_decision` above. -/

structure LoopState where
  frame_count : Nat
  action_sequence : List (List Char)
  current_action_index : Nat
  pending_api_call : Bool
  in_flight : Nat
deriving DecidableEq

/-- Initial state: `frame_count = 0`, `action_sequence = []`, `current_action_index = 0`,
`pending_api_call = False` (lines 669-675). -/
def init_loop_state : LoopState := ⟨0, [], 0, false, 0⟩

/-- One atomic event of the control loop with frame interval `N`. -/
inductive LoopStep (N : Nat) : LoopState → LoopState → Prop where
  | tick_idle (s : LoopState) :
      ((s.frame_count + 1) % N ≠ 0 ∨ s.pending_api_call = true) →
      LoopStep N s { s with frame_count := s.frame_count + 1 }
  | tick_dispatch (s : LoopState) :
      (s.frame_count + 1) % N = 0 → s.pending_api_call = false →
      s.action_sequence.length ≤ s.current_action_index →
      LoopStep N s { s with
        frame_count := s.frame_count + 1,
        pending_api_call := true,
        in_flight := s.in_flight + 1 }
  | tick_execute (s : LoopState) :
      (s.frame_count + 1) % N = 0 → s.pending_api_call = false →
      s.action_sequence ≠ [] →
      s.current_action_index < s.action_sequence.length →
      LoopStep N s { s with
        frame_count := s.frame_count + 1,
        current_action_index := s.current_action_index + 1 }
  | complete (s : LoopState) (result : List (List Char) × Option (List Char)) :
      1 ≤ s.in_flight →
      LoopStep N s { s with
        action_sequence := result.1,
        current_action_index := 0,
        pending_api_call := false,
        in_flight := s.in_flight - 1 }

/-- Reachability from the initial loop state. -/
inductive Reach (N : Nat) : LoopState → Prop where
  | init : Reach N init_loop_state
  | step {s s' : LoopState} : Reach N s → LoopStep N s s' → Reach N s'

/-! ## History lemmas (C4) -/

lemma record_decision_length {h : List (List Char)} (hh : h.length ≤ 10) (d : List Char) :
    (record_decision h d).length ≤ 10 := by
  unfold record_decision
  split <;> rename_i hcond <;> simp at hcond ⊢ <;> omega

lemma foldl_record_decision (ds : List (List Char)) :
    ∀ h : List (List Char), h.length ≤ 10 →
      ds.foldl record_decision h = (h ++ ds).drop ((h ++ ds).length - 10) := by
  induction ds with
  | nil =>
    intro h hh
    have hz : h.length - 10 = 0 := by omega
    simp [hz]
  | cons d ds ih =>
    intro h hh
    have hrec := ih (record_decision h d) (record_decision_length hh d)
    rw [List.foldl_cons, hrec]
    by_cases hb : 10 < h.length + 1
    · have h10 : h.length = 10 := by omega
      cases h with
      | nil => simp at h10
      | cons a h' =>
        have hl' : h'.length = 9 := by simp at h10; omega
        have hc : 10 < ((a :: h') ++ [d]).length := by simp [hl']
        have hr : record_decision (a :: h') d = h' ++ [d] := by
          unfold record_decision
          rw [if_pos hc]
          rfl
        rw [hr]
        have e1 : ((h' ++ [d]) ++ ds).length - 10 = ds.length := by
          simp [hl']
          omega
        have e2 : (((a :: h') ++ d :: ds)).length - 10 = ds.length + 1 := by
          simp [hl']
        rw [e1, e2]
        have e3 : (h' ++ [d]) ++ ds = h' ++ d :: ds := by simp
        rw [e3]
        rw [show ((a :: h') ++ d :: ds) = a :: (h' ++ d :: ds) from rfl]
        rw [List.drop_succ_cons]
    · have hc : ¬ 10 < (h ++ [d]).length := by simp; omega
      have hr : record_decision h d = h ++ [d] := by
        unfold record_decision
        rw [if_neg hc]
      rw [hr]
      have e3 : (h ++ [d]) ++ ds = h ++ d :: ds := by simp
      rw [e3]

/-- C4: History never exceeds 10 entries regardless of insertion count, and
after n insertions it holds exactly the min(n,10) most recent entries in
insertion order (so after more than 10 insertions the oldest entries are
evicted FIFO and the most recent 10 remain in order). -/
theorem c4_history_fifo_bound (ds : List (List Char)) :
    (ds.foldl record_decision []).length ≤ 10 ∧
    ds.foldl record_decision [] = ds.drop (ds.length - 10) := by
  have h := foldl_record_decision ds [] (by simp)
  simp at h
  refine ⟨?_, h⟩
  rw [h, List.length_drop]
  omega

/-- Every result of the sequence parser is either the `(["wait"], None)`
default or a validated token list paired with the full response text. -/
lemma parse_shape (resp : List Char) :
    parse_action_sequence resp = ([str "wait"], none) ∨
      ∃ toks, parse_action_sequence resp = (toks, some resp) ∧
        toks.all (fun a => valid_actions.contains a) = true := by
  rw [parse_action_sequence]
  split
  · exact Or.inl rfl
  · split
    · exact Or.inl rfl
    · split
      · rename_i hall
        exact Or.inr ⟨_, rfl, hall⟩
      · exact Or.inl rfl

/-! ## Retry behaviour under persistent transient failure (C2, C5) -/

/-- Exact behaviour of `ask_claude_for_action` when the policy raises a
transient (`overloaded_error`) failure on every attempt: every retry sleeps
the flat `base_delay` (the local counter restarts at each recursive call),
one suggestion is consumed per attempt, and when the recursion budget `fuel`
runs out the deepest call's `RecursionError` is caught by its own handler,
classified non-transient, and the `(["wait"], None)` default is passed back
up the whole return chain. -/
lemma ask_claude_overloaded_eq (fuel : Nat) :
    ∀ (idx : Nat) (q : List (List Char)),
      ask_claude_for_action true (fun _ => PolicyOutcome.overloaded) idx q fuel =
        ⟨Except.ok ([str "wait"], none), List.replicate (fuel + 1) base_delay_vp,
          fuel + 1, q.drop (fuel + 1)⟩ := by
  induction fuel with
  | zero =>
    intro idx q
    simp [ask_claude_for_action, max_retries_vp, base_delay_vp, ← List.drop_one]
  | succ n ih =>
    intro idx q
    rw [ask_claude_for_action]
    simp only [Bool.true_eq_false, if_false, ih (idx + 1) q.tail]
    simp [max_retries_vp, base_delay_vp, List.replicate_succ, ← List.drop_one,
      List.drop_drop]
    rw [Nat.add_comm 1 (n + 1)]

/-- The result of every `ask_claude_for_action` call is an `Except.ok`: either
the `(["wait"], None)` default or the validated parse of some reply the
policy produced.  In particular no exception ever reaches the caller. -/
lemma ask_claude_shape (key : Bool) (o : Nat → PolicyOutcome) :
    ∀ (fuel idx : Nat) (q : List (List Char)),
      (ask_claude_for_action key o idx q fuel).result =
          Except.ok ([str "wait"], none) ∨
        ∃ j toks text, o j = PolicyOutcome.reply text ∧
          (ask_claude_for_action key o idx q fuel).result =
            Except.ok (toks, some text) ∧
          toks.all (fun a => valid_actions.contains a) = true := by
  intro fuel
  induction fuel with
  | zero =>
    intro idx q
    rw [ask_claude_for_action]
    by_cases hk : key = false
    · rw [if_pos hk]
      exact Or.inl rfl
    · rw [if_neg hk]
      cases ho : o idx with
      | reply text =>
        rcases parse_shape text with hp | ⟨toks, hp, hall⟩
        · exact Or.inl (by simp [hp])
        · exact Or.inr ⟨idx, toks, text, ho, by simp [hp], hall⟩
      | overloaded => exact Or.inl rfl
      | otherError => exact Or.inl rfl
  | succ n ih =>
    intro idx q
    rw [ask_claude_for_action]
    by_cases hk : key = false
    · rw [if_pos hk]
      exact Or.inl rfl
    · rw [if_neg hk]
      cases ho : o idx with
      | reply text =>
        rcases parse_shape text with hp | ⟨toks, hp, hall⟩
        · exact Or.inl (by simp [hp])
        · exact Or.inr ⟨idx, toks, text, ho, by simp [hp], hall⟩
      | otherError => exact Or.inl rfl
      | overloaded =>
        rcases ih (idx + 1) q.tail with h | ⟨j, toks, text, hj, hres, hall⟩
        · exact Or.inl h
        · exact Or.inr ⟨j, toks, text, hj, hres, hall⟩

/-- With the key set, `call_ai_api` returns an action whenever the recursion
budget covers the bounded retry ceiling (the instance counter stops the
recursion after at most `max_retries` descents). -/
lemma call_ai_api_total (o : Nat → PolicyOutcome) :
    ∀ (fuel idx rc : Nat) (h : List (List Char)),
      max_retries_cc ≤ fuel + rc →
      ∃ a, (call_ai_api true o idx rc h fuel).action = Except.ok a := by
  intro fuel
  induction fuel with
  | zero =>
    intro idx rc h hle
    rw [call_ai_api]
    cases ho : o idx with
    | reply text => exact ⟨_, rfl⟩
    | otherError => exact ⟨_, rfl⟩
    | overloaded =>
      have hne : ¬ (rc + 1 ≤ max_retries_cc) := by
        simp [max_retries_cc] at hle ⊢
        omega
      simp only [Bool.true_eq_false, if_false]
      rw [if_neg hne]
      exact ⟨_, rfl⟩
  | succ n ih =>
    intro idx rc h hle
    rw [call_ai_api]
    cases ho : o idx with
    | reply text => exact ⟨_, rfl⟩
    | otherError => exact ⟨_, rfl⟩
    | overloaded =>
      by_cases hyes : rc + 1 ≤ max_retries_cc
      · rcases ih (idx + 1) (rc + 1) h (by omega) with ⟨a, ha⟩
        refine ⟨a, ?_⟩
        simp only [Bool.true_eq_false, if_false]
        rw [if_pos hyes]
        exact ha
      · simp only [Bool.true_eq_false, if_false]
        rw [if_neg hyes]
        exact ⟨_, rfl⟩

/-- C2: the decision function is total and never lets an exception reach its
caller.  Every `ask_claude_for_action` call — for every credential state,
every outcome stream (malformed, empty or well-formed replies, transient and
non-transient exceptions) and every recursion budget — returns `Except.ok`:
either the default `(["wait"], None)` (missing credential, non-transient
exception, unparseable reply, or an exhausted transient chain, whose
recursion-limit `RecursionError` is caught inside the deepest call and
resolved to the default) or a successfully parsed, fully validated action
sequence.  `call_ai_api` likewise always returns an action once the budget
covers its bounded retry ceiling. -/
theorem c2_decision_engine_total :
    (∀ (key : Bool) (o : Nat → PolicyOutcome) (fuel idx : Nat) (q : List (List Char)),
      (ask_claude_for_action key o idx q fuel).result =
          Except.ok ([str "wait"], none) ∨
        ∃ j toks text, o j = PolicyOutcome.reply text ∧
          (ask_claude_for_action key o idx q fuel).result =
            Except.ok (toks, some text) ∧
          toks.all (fun a => valid_actions.contains a) = true) ∧
    (∀ (o : Nat → PolicyOutcome) (fuel idx rc : Nat) (h : List (List Char)),
      max_retries_cc ≤ fuel + rc →
      ∃ a, (call_ai_api true o idx rc h fuel).action = Except.ok a) :=
  ⟨fun key o fuel idx q => ask_claude_shape key o fuel idx q,
   fun o fuel idx rc h hle => call_ai_api_total o fuel idx rc h hle⟩

/-- Witness for C2: a policy that raises a non-transient exception on every
attempt; the sequence engine resolves to the `(["wait"], None)` default and
the single-action engine returns an action. -/
theorem c2_witness :
    (ask_claude_for_action true (fun _ => PolicyOutcome.otherError) 0 [] 3).result
        = Except.ok ([str "wait"], none) ∧
    (call_ai_api true (fun _ => PolicyOutcome.otherError) 0 0 [] 10).action
        = Except.ok (str "wait") := by
  rcases c2_decision_engine_total.1 true (fun _ => PolicyOutcome.otherError) 3 0 []
    with h1 | ⟨j, toks, text, hj, _, _⟩
  · rcases c2_decision_engine_total.2 (fun _ => PolicyOutcome.otherError) 10 0 0 []
      (by decide) with ⟨a, ha⟩
    exact ⟨h1, by rfl⟩
  · simp at hj

/-- C5 (code bug): under persistent transient failure, `ask_claude_for_action`
sleeps the flat base delay `d = 2` before every retry — the local
`retry_count` restarts at 0 on each recursive call, so the delay never grows
and the `max_retries` ceiling is never reached — whereas the companion engine
`call_ai_api`, whose counter is an instance field, produces exactly the
delays `d, 2d, 4d = 2, 4, 8` and then resolves to the default `"wait"` after
its fourth failed attempt, with no further retry. -/
theorem c5_backoff_divergence (fuel idx : Nat) (q : List (List Char)) :
    (ask_claude_for_action true (fun _ => PolicyOutcome.overloaded) idx q fuel).delays
        = List.replicate (fuel + 1) base_delay_vp ∧
    call_ai_api true (fun _ => PolicyOutcome.overloaded) 0 0 [] 10 =
      ⟨Except.ok (str "wait"), [2, 4, 8], 4, 4, []⟩ := by
  rw [ask_claude_overloaded_eq]
  exact ⟨rfl, rfl⟩

/-- C9 counterexample: with the credential missing, `vibeplay.py`'s startup
checks still pass (they never consult the key), the control loop starts and
executes a tick that even dispatches a decision request; the dispatched
`ask_claude_for_action` then short-circuits to `(["wait"], None)` with zero
API attempts instead of the process failing fatally.  The claim's "no tick is
executed and no decision request is ever attempted" is therefore false for
this program. -/
theorem c9_counterexample :
    vp_main_enters_loop false true false false = true ∧
    Reach 1 ⟨1, [], 0, true, 1⟩ ∧
    (ask_claude_for_action false (fun _ => PolicyOutcome.otherError) 0 [] 9).result
        = Except.ok ([str "wait"], none) ∧
    (ask_claude_for_action false (fun _ => PolicyOutcome.otherError) 0 [] 9).attempts
        = 0 := by
  refine ⟨rfl, ?_, rfl, rfl⟩
  exact Reach.step Reach.init
    (LoopStep.tick_dispatch init_loop_state rfl rfl (Nat.le_refl 0))

/-- C9 amended: only `claude_controlled_pokemon.py` treats a missing
credential as fatal at startup (its `main` returns before the loop);
`vibeplay.py`'s startup never consults the credential, its loop runs, and
every decision request then degrades to the `["wait"]` default without a
single API attempt — in both engines the credential check inside the call is
a per-request early return, not a startup gate. -/
theorem c9_missing_credential_behaviour :
    (∀ ok : Bool, ccp_main_enters_loop false ok = false) ∧
    (∀ key rom req ok : Bool,
        vp_main_enters_loop key rom req ok = vp_main_enters_loop true rom req ok) ∧
    (∀ (o : Nat → PolicyOutcome) (idx : Nat) (q : List (List Char)) (fuel : Nat),
        ask_claude_for_action false o idx q fuel =
          ⟨Except.ok ([str "wait"], none), [], 0, q⟩) ∧
    (∀ (o : Nat → PolicyOutcome) (idx rc : Nat) (h : List (List Char)) (fuel : Nat),
        call_ai_api false o idx rc h fuel = ⟨Except.ok (str "wait"), [], 0, rc, h⟩) := by
  refine ⟨fun ok => rfl, fun key rom req ok => rfl, fun o idx q fuel => ?_,
    fun o idx rc h fuel => ?_⟩
  · rw [ask_claude_for_action]
    simp
  · rw [call_ai_api]
    simp

/-! ## Suggestion-queue consumption (C10) -/

/-- After any `ask_claude_for_action` call with the credential set, the
suggestion queue is a suffix of its former tail: the head was consumed before
the API request, retries consume further heads, and nothing is ever pushed
back. -/
lemma ask_claude_queue_suffix (o : Nat → PolicyOutcome) (fuel : Nat) :
    ∀ (idx : Nat) (q : List (List Char)),
      (ask_claude_for_action true o idx q fuel).queue <:+ q.tail := by
  induction fuel with
  | zero =>
    intro idx q
    rw [ask_claude_for_action]
    cases o idx <;> simp [max_retries_vp]
  | succ n ih =>
    intro idx q
    rw [ask_claude_for_action]
    cases houtcome : o idx <;> simp [max_retries_vp]
    exact (ih (idx + 1) q.tail).trans (List.tail_suffix q.tail)

/-- C10: in sequence mode, a pending suggestion is removed from the queue
before the policy call is made, and a request that afterwards fails (policy
exception) or succeeds leaves the queue without it — the consumed suggestion
is never returned to the queue, so no later decision request can receive it;
further retries only consume more suggestions (suffix, first conjunct). -/
theorem c10_suggestion_consume_once (o : Nat → PolicyOutcome) (idx fuel : Nat)
    (s : List Char) (rest : List (List Char)) :
    ((ask_claude_for_action true o idx (s :: rest) fuel).queue <:+ rest) ∧
    (∀ text, o idx = PolicyOutcome.reply text →
       (ask_claude_for_action true o idx (s :: rest) fuel).queue = rest) ∧
    (o idx = PolicyOutcome.otherError →
       (ask_claude_for_action true o idx (s :: rest) fuel).queue = rest) := by
  refine ⟨ask_claude_queue_suffix o fuel idx (s :: rest), ?_, ?_⟩
  · intro text htext
    rw [ask_claude_for_action]
    simp [htext]
  · intro hother
    rw [ask_claude_for_action]
    simp [hother]

/-- Witness for C10 at a concrete request: queue `["go north"]`, a policy
exception, recursion budget 3. -/
theorem c10_witness :
    ((ask_claude_for_action true (fun _ => PolicyOutcome.otherError) 0
        [str "go north"] 3).queue <:+ []) ∧
    (ask_claude_for_action true (fun _ => PolicyOutcome.otherError) 0
        [str "go north"] 3).queue = [] := by
  have h := c10_suggestion_consume_once (fun _ => PolicyOutcome.otherError) 0 3
    (str "go north") []
  exact ⟨h.1, h.2.2 rfl⟩

/-! ## Single-flight invariant of the control loop (C3) -/

/-- Invariant of every reachable loop state: at most one decision call is in
flight, and the `pending_api_call` flag is set exactly while one is. -/
lemma reach_single_flight {N : Nat} {s : LoopState} (h : Reach N s) :
    s.in_flight ≤ 1 ∧ (s.pending_api_call = true ↔ s.in_flight = 1) := by
  induction h with
  | init => simp [init_loop_state]
  | @step s _ _ hstep ih =>
    cases hstep with
    | tick_idle h => simpa using ih
    | tick_dispatch h1 h2 h3 =>
      have hz : s.in_flight = 0 := by
        rcases ih with ⟨hle, hiff⟩
        rw [h2] at hiff
        simp at hiff
        omega
      simp [hz]
    | tick_execute h1 h2 h3 h4 => simpa using ih
    | complete result h =>
      rcases ih with ⟨hle, _⟩
      have ho : s.in_flight = 1 := by omega
      simp [ho]

/-- C3: in every execution of the control loop at most one decision call is
in flight — this holds before and after every reachable step — and any step
that adds an in-flight call can only happen from a state with the pending
flag clear and no call outstanding (the dispatch guard `not
pending_api_call`), so a second concurrent dispatch is impossible. -/
theorem c3_single_flight (N : Nat) (s s' : LoopState)
    (hs : Reach N s) (hstep : LoopStep N s s') :
    s.in_flight ≤ 1 ∧ s'.in_flight ≤ 1 ∧
      (s.in_flight < s'.in_flight →
        s.pending_api_call = false ∧ s.in_flight = 0) := by
  have inv := reach_single_flight hs
  have inv' := reach_single_flight (Reach.step hs hstep)
  refine ⟨inv.1, inv'.1, ?_⟩
  intro hlt
  cases hstep with
  | tick_idle h => simp at hlt
  | tick_dispatch h1 h2 h3 =>
    refine ⟨h2, ?_⟩
    rcases inv with ⟨hle, hiff⟩
    rw [h2] at hiff
    simp at hiff
    omega
  | tick_execute h1 h2 h3 h4 => simp at hlt
  | complete result h =>
    simp at hlt
    omega

/-- Witness for C3 at the concrete first dispatch from the initial state with
frame interval 1. -/
theorem c3_witness :
    init_loop_state.in_flight ≤ 1 ∧
    (⟨1, [], 0, true, 1⟩ : LoopState).in_flight ≤ 1 ∧
    (init_loop_state.in_flight < (⟨1, [], 0, true, 1⟩ : LoopState).in_flight →
      init_loop_state.pending_api_call = false ∧ init_loop_state.in_flight = 0) := by
  exact c3_single_flight 1 init_loop_state ⟨1, [], 0, true, 1⟩ Reach.init
    (LoopStep.tick_dispatch init_loop_state rfl rfl (Nat.le_refl 0))

/-! ## Occurrence lemmas for the string primitives -/

lemma splitFirst_occurs (pat : List Char) :
    ∀ (s b a : List Char), splitFirst pat s = some (b, a) → s = b ++ pat ++ a := by
  intro s
  induction s with
  | nil =>
    intro b a h
    rw [splitFirst] at h
    by_cases hp : pat = []
    · simp [hp] at h
      simp [hp, h.1, h.2]
    · simp [hp] at h
  | cons c rest ih =>
    intro b a h
    rw [splitFirst] at h
    by_cases hp : pat.isPrefixOf (c :: rest)
    · rw [if_pos hp] at h
      have hpre : pat <+: c :: rest := by
        rwa [ List.isPrefixOf_iff_prefix] at hp
      rcases hpre with ⟨tl, htl⟩
      simp at h
      rcases h with ⟨hb, ha⟩
      subst hb
      rw [← ha, ← htl, List.drop_left]
      simp [htl]
    · rw [if_neg hp] at h
      cases hsf : splitFirst pat rest with
      | none => rw [hsf] at h; simp at h
      | some p =>
        rcases p with ⟨b', a'⟩
        rw [hsf] at h
        simp at h
        rcases h with ⟨hb, ha⟩
        have hr := ih b' a' hsf
        rw [← hb, ← ha, hr]
        simp

lemma splitFirst_isSome_of_occurs (pat : List Char) :
    ∀ (b a s : List Char), s = b ++ pat ++ a → (splitFirst pat s).isSome := by
  intro b
  induction b with
  | nil =>
    intro a s h
    simp at h
    subst h
    cases hpa : pat ++ a with
    | nil =>
      simp at hpa
      rw [hpa.1]
      decide
    | cons c rest =>
      rw [splitFirst]
      have hpre : pat.isPrefixOf (c :: rest) := by
        rw [ List.isPrefixOf_iff_prefix, ← hpa]
        exact List.prefix_append pat a
      rw [if_pos hpre]
      simp
  | cons x b' ih =>
    intro a s h
    subst h
    rw [show (x :: b') ++ pat ++ a = x :: (b' ++ pat ++ a) by simp, splitFirst]
    by_cases hp : pat.isPrefixOf (x :: (b' ++ pat ++ a))
    · rw [if_pos hp]
      simp
    · rw [if_neg hp]
      have := ih a (b' ++ pat ++ a) rfl
      cases hsf : splitFirst pat (b' ++ pat ++ a) with
      | none => rw [hsf] at this; simp at this
      | some p => simp

lemma containsSub_iff {pat s : List Char} :
    containsSub pat s = true ↔ ∃ b a, s = b ++ pat ++ a := by
  unfold containsSub
  constructor
  · intro h
    cases hsf : splitFirst pat s with
    | none => rw [hsf] at h; simp at h
    | some p => exact ⟨p.1, p.2, splitFirst_occurs pat s p.1 p.2 (by rw [hsf])⟩
  · rintro ⟨b, a, h⟩
    simpa using splitFirst_isSome_of_occurs pat b a s h

lemma containsSub_iff_occ {pat s : List Char} :
    containsSub pat s = true ↔ pat <:+: s := by
  rw [containsSub_iff]
  constructor
  · rintro ⟨b, a, h⟩
    exact ⟨b, a, by rw [h]⟩
  · rintro ⟨b, a, h⟩
    exact ⟨b, a, by rw [← h]⟩

lemma containsSub_of_sub {pat l s : List Char} (h1 : containsSub pat l = true)
    (h2 : l <:+: s) : containsSub pat s = true := by
  rw [containsSub_iff_occ] at h1 ⊢
  exact h1.trans h2

lemma mem_of_containsSub {pat s : List Char} {c : Char} (h : containsSub pat s = true)
    (hc : c ∈ pat) : c ∈ s := by
  rcases containsSub_iff.mp h with ⟨b, a, rfl⟩
  simp [hc]

lemma splitFirst_none_of_nomem {pat s : List Char} {c : Char} (hc : c ∈ pat)
    (h : c ∉ s) : splitFirst pat s = none := by
  cases hsf : splitFirst pat s with
  | none => rfl
  | some p =>
    exfalso
    exact h (mem_of_containsSub (by unfold containsSub; rw [hsf]; rfl) hc)

lemma splitFirst_of_starts {pat r : List Char} (hpat : pat ≠ []) :
    splitFirst pat (pat ++ r) = some ([], r) := by
  cases pat with
  | nil => exact absurd rfl hpat
  | cons c t =>
    rw [show (c :: t) ++ r = c :: (t ++ r) from rfl, splitFirst]
    have hpre : (c :: t).isPrefixOf (c :: (t ++ r)) := by
      rw [ List.isPrefixOf_iff_prefix]
      exact ⟨r, by simp⟩
    rw [if_pos hpre, show c :: (t ++ r) = (c :: t) ++ r from rfl, List.drop_left]

lemma segAfterFirst_of_starts {pat r : List Char} (hpat : pat ≠ [])
    (hno : splitFirst pat r = none) : segAfterFirst pat (pat ++ r) = r := by
  simp only [segAfterFirst, splitFirst_of_starts hpat, hno]

lemma segAfterFirst_sub (pat s : List Char) : segAfterFirst pat s <:+: s := by
  cases h1 : splitFirst pat s with
  | none =>
    have he : segAfterFirst pat s = [] := by simp only [segAfterFirst, h1]
    rw [he]
    exact List.nil_infix
  | some p =>
    rcases p with ⟨b, a⟩
    have hocc := splitFirst_occurs pat s b a h1
    cases h2 : splitFirst pat a with
    | none =>
      have he : segAfterFirst pat s = a := by simp only [segAfterFirst, h1, h2]
      rw [he, hocc]
      exact ⟨b ++ pat, [], by simp⟩
    | some q =>
      rcases q with ⟨b2, a2⟩
      have hocc2 := splitFirst_occurs pat a b2 a2 h2
      have he : segAfterFirst pat s = b2 := by simp only [segAfterFirst, h1, h2]
      rw [he, hocc, hocc2]
      exact ⟨b ++ pat, pat ++ a2, by simp⟩

/-! ## Line-splitting lemmas -/

lemma pyLines_ne_nil (s : List Char) : pyLines s ≠ [] := by
  cases s with
  | nil => simp [pyLines]
  | cons c s' =>
    rw [pyLines]
    by_cases hc : c = '\n'
    · simp [hc]
    · rw [if_neg hc]
      cases pyLines s' <;> simp

lemma pyLines_no_nl (l : List Char) (h : '\n' ∉ l) : pyLines l = [l] := by
  induction l with
  | nil => rfl
  | cons c l' ih =>
    have hc : c ≠ '\n' := fun he => h (he ▸ List.mem_cons_self c l')
    have hl' : '\n' ∉ l' := fun hm => h (List.mem_cons_of_mem c hm)
    rw [pyLines, if_neg hc, ih hl']

lemma pyLines_append_nl (l r : List Char) (h : '\n' ∉ l) :
    pyLines (l ++ '\n' :: r) = l :: pyLines r := by
  induction l with
  | nil => simp [pyLines]
  | cons c l' ih =>
    have hc : c ≠ '\n' := fun he => h (he ▸ List.mem_cons_self c l')
    have hl' : '\n' ∉ l' := fun hm => h (List.mem_cons_of_mem c hm)
    rw [show (c :: l') ++ '\n' :: r = c :: (l' ++ '\n' :: r) from rfl]
    rw [pyLines, if_neg hc, ih hl']

lemma pyLines_joinLines (L : List (List Char)) (hL : L ≠ [])
    (h : ∀ l ∈ L, '\n' ∉ l) : pyLines (joinLines L) = L := by
  induction L with
  | nil => exact absurd rfl hL
  | cons l ls ih =>
    cases ls with
    | nil =>
      rw [joinLines]
      exact pyLines_no_nl l (h l (List.mem_cons_self l []))
    | cons l2 ls' =>
      rw [joinLines, pyLines_append_nl l _ (h l (List.mem_cons_self l _))]
      · rw [ih (by simp) (fun x hx => h x (List.mem_cons_of_mem l hx))]
      · simp

lemma pyLines_structure (s : List Char) :
    ∃ l0 ls, pyLines s = l0 :: ls ∧ l0 <+: s ∧ ∀ l ∈ ls, l <:+: s := by
  induction s with
  | nil => exact ⟨[], [], rfl, List.nil_prefix, by simp⟩
  | cons c s' ih =>
    rcases ih with ⟨l0, ls, heq, hpre, hsub⟩
    by_cases hc : c = '\n'
    · refine ⟨[], pyLines s', by rw [pyLines, if_pos hc], List.nil_prefix, ?_⟩
      intro l hl
      have : l <:+: s' := by
        rw [heq] at hl
        rcases List.mem_cons.mp hl with h1 | h2
        · exact h1 ▸ hpre.isInfix
        · exact hsub l h2
      exact this.trans (List.suffix_cons c s').isInfix
    · refine ⟨c :: l0, ls, ?_, ?_, ?_⟩
      · rw [pyLines, if_neg hc, heq]
      · exact List.cons_prefix_cons.mpr ⟨rfl, hpre⟩
      · intro l hl
        exact (hsub l hl).trans (List.suffix_cons c s').isInfix

lemma mem_pyLines_sub {s l : List Char} (h : l ∈ pyLines s) : l <:+: s := by
  rcases pyLines_structure s with ⟨l0, ls, heq, hpre, hsub⟩
  rw [heq] at h
  rcases List.mem_cons.mp h with h1 | h2
  · exact h1 ▸ hpre.isInfix
  · exact hsub l h2

/-! ## Strip and whitespace-split lemmas -/

lemma dropWhile_sfx (p : Char → Bool) (l : List Char) : l.dropWhile p <:+ l :=
  ⟨l.takeWhile p, List.takeWhile_append_dropWhile p l⟩

lemma pyStrip_sub (s : List Char) : pyStrip s <:+: s := by
  unfold pyStrip
  have h1 : s.dropWhile Char.isWhitespace <:+ s := dropWhile_sfx _ s
  have h2 : (s.dropWhile Char.isWhitespace).reverse.dropWhile Char.isWhitespace <:+
      (s.dropWhile Char.isWhitespace).reverse := dropWhile_sfx _ _
  set d := s.dropWhile Char.isWhitespace with hd
  set e := d.reverse.dropWhile Char.isWhitespace with he
  have h3 : e.reverse <+: d := by
    rw [← List.reverse_suffix]
    simpa using h2
  exact (h3.isInfix).trans h1.isInfix

lemma mem_wsSplitAux_sub :
    ∀ (s acc x : List Char), x ∈ wsSplitAux s acc → x <:+: (acc.reverse ++ s) := by
  intro s
  induction s with
  | nil =>
    intro acc x hx
    rw [wsSplitAux] at hx
    by_cases hacc : acc = []
    · simp [hacc] at hx
    · rw [if_neg hacc] at hx
      simp at hx
      exact hx ▸ ⟨[], [], by simp⟩
  | cons c s' ih =>
    intro acc x hx
    rw [wsSplitAux] at hx
    by_cases hws : Char.isWhitespace c
    · rw [if_pos hws] at hx
      by_cases hacc : acc = []
      · rw [if_pos hacc] at hx
        have := ih [] x hx
        simp at this
        exact this.trans (List.suffix_cons c s').isInfix |>.trans
          (List.suffix_append acc.reverse (c :: s')).isInfix
      · rw [if_neg hacc] at hx
        rcases List.mem_cons.mp hx with h1 | h2
        · exact h1 ▸ ⟨[], c :: s', by simp⟩
        · have := ih [] x h2
          simp at this
          exact this.trans (List.suffix_cons c s').isInfix |>.trans
            (List.suffix_append acc.reverse (c :: s')).isInfix
    · rw [if_neg hws] at hx
      have := ih (c :: acc) x hx
      simpa using this

lemma mem_wsSplit_sub {s x : List Char} (h : x ∈ wsSplit s) : x <:+: s := by
  have := mem_wsSplitAux_sub s [] x h
  simpa using this

/-! ## Decision-line builders and the eval round trip

`build_seq_reply pre toks` is the reply text demanded by the source's own
RESPONSE FORMAT (`vibeplay.py` lines 458-497): free-form lines followed by a
final `Action Sequence: ['a1', 'a2', ...]` line with single-quoted tokens. -/

/-- The single-quoted item list after the opening bracket, closing bracket
included: `'t1', 't2']`. -/
def render_items_sq : List (List Char) → List Char
  | [] => [']']
  | [t] => '\'' :: t ++ '\'' :: [']']
  | t :: ts => '\'' :: t ++ '\'' :: ',' :: ' ' :: render_items_sq ts

/-- The same list double-quoted (image of `render_items_sq` under the
quote replacement). -/
def render_items_dq : List (List Char) → List Char
  | [] => [']']
  | [t] => '"' :: t ++ '"' :: [']']
  | t :: ts => '"' :: t ++ '"' :: ',' :: ' ' :: render_items_dq ts

/-- A well-formed sequence-mode decision line. -/
def mk_seq_line (toks : List (List Char)) : List Char :=
  str "Action Sequence: [" ++ render_items_sq toks

/-- A reply: free-form lines `pre`, then the final decision line. -/
def build_seq_reply (pre toks : List (List Char)) : List Char :=
  joinLines (pre ++ [mk_seq_line toks])

/-- Token hygiene required of the rendered decision line: no quotes (they
would end the string literal early), no newline (it would break the line) and
no capital `A` (ruling out a second occurrence of the marker). -/
def tok_ok (t : List Char) : Prop := '\'' ∉ t ∧ '"' ∉ t ∧ '\n' ∉ t ∧ 'A' ∉ t

lemma valid_actions_tok_ok : ∀ t ∈ valid_actions, tok_ok t := by
  intro t ht
  fin_cases ht <;> exact ⟨by decide, by decide, by decide, by decide⟩

lemma render_sq_cons2 (t t2 : List Char) (ts' : List (List Char)) :
    render_items_sq (t :: t2 :: ts') =
      '\'' :: t ++ '\'' :: ',' :: ' ' :: render_items_sq (t2 :: ts') := rfl

lemma render_dq_cons2 (t t2 : List Char) (ts' : List (List Char)) :
    render_items_dq (t :: t2 :: ts') =
      '"' :: t ++ '"' :: ',' :: ' ' :: render_items_dq (t2 :: ts') := rfl

lemma mem_render_sq {c : Char} {toks : List (List Char)}
    (h : c ∈ render_items_sq toks) :
    c = ']' ∨ c = '\'' ∨ c = ',' ∨ c = ' ' ∨ ∃ t ∈ toks, c ∈ t := by
  induction toks with
  | nil => simp [render_items_sq] at h; tauto
  | cons t ts ih =>
    cases ts with
    | nil =>
      simp [render_items_sq] at h
      rcases h with h | h | h
      · exact Or.inr (Or.inl h)
      · exact Or.inr (Or.inr (Or.inr (Or.inr ⟨t, by simp, h⟩)))
      · tauto
    | cons t2 ts' =>
      rw [render_sq_cons2] at h
      simp at h
      rcases h with h | h | h | h | h
      · exact Or.inr (Or.inl h)
      · exact Or.inr (Or.inr (Or.inr (Or.inr ⟨t, by simp, h⟩)))
      · exact Or.inr (Or.inl h)
      · exact Or.inr (Or.inr (Or.inl h))
      · rcases h with h | h
        · exact Or.inr (Or.inr (Or.inr (Or.inl h)))
        · rcases ih h with h1 | h1 | h1 | h1 | ⟨x, hx, hcx⟩
          · exact Or.inl h1
          · exact Or.inr (Or.inl h1)
          · exact Or.inr (Or.inr (Or.inl h1))
          · exact Or.inr (Or.inr (Or.inr (Or.inl h1)))
          · exact Or.inr (Or.inr (Or.inr (Or.inr ⟨x, by simp [hx], hcx⟩)))

lemma render_sq_no_nl {toks : List (List Char)} (h : ∀ t ∈ toks, tok_ok t) :
    '\n' ∉ render_items_sq toks := by
  intro hmem
  rcases mem_render_sq hmem with h1 | h1 | h1 | h1 | ⟨t, ht, hct⟩
  · simp at h1
  · simp at h1
  · simp at h1
  · simp at h1
  · exact (h t ht).2.2.1 hct

lemma render_sq_no_A {toks : List (List Char)} (h : ∀ t ∈ toks, tok_ok t) :
    'A' ∉ render_items_sq toks := by
  intro hmem
  rcases mem_render_sq hmem with h1 | h1 | h1 | h1 | ⟨t, ht, hct⟩
  · simp at h1
  · simp at h1
  · simp at h1
  · simp at h1
  · exact (h t ht).2.2.2 hct

lemma mk_seq_line_no_nl {toks : List (List Char)} (h : ∀ t ∈ toks, tok_ok t) :
    '\n' ∉ mk_seq_line toks := by
  unfold mk_seq_line
  intro hmem
  rcases List.mem_append.mp hmem with h1 | h1
  · revert h1
    decide
  · exact render_sq_no_nl h h1

lemma mk_seq_line_split (toks : List (List Char)) :
    mk_seq_line toks = seq_marker ++ (' ' :: '[' :: render_items_sq toks) := by
  unfold mk_seq_line seq_marker
  have hpre : str "Action Sequence: [" = str "Action Sequence:" ++ [' ', '['] := by decide
  rw [hpre]
  simp

lemma seq_marker_in_mk (toks : List (List Char)) :
    containsSub seq_marker (mk_seq_line toks) = true := by
  apply containsSub_iff.mpr
  exact ⟨[], ' ' :: '[' :: render_items_sq toks, by simpa using mk_seq_line_split toks⟩

lemma segAfter_mk {toks : List (List Char)} (h : ∀ t ∈ toks, tok_ok t) :
    segAfterFirst seq_marker (mk_seq_line toks) =
      ' ' :: '[' :: render_items_sq toks := by
  rw [mk_seq_line_split toks]
  apply segAfterFirst_of_starts (by decide)
  apply splitFirst_none_of_nomem (c := 'A') (by decide)
  intro hmem
  rcases List.mem_cons.mp hmem with h1 | h1
  · simp at h1
  rcases List.mem_cons.mp h1 with h2 | h2
  · simp at h2
  · exact render_sq_no_A h h2

lemma render_sq_ends (toks : List (List Char)) :
    ∃ core, render_items_sq toks = core ++ [']'] := by
  induction toks with
  | nil => exact ⟨[], rfl⟩
  | cons t ts ih =>
    cases ts with
    | nil => exact ⟨'\'' :: t ++ ['\''], by simp [render_items_sq]⟩
    | cons t2 ts' =>
      rcases ih with ⟨core, hcore⟩
      exact ⟨'\'' :: t ++ '\'' :: ',' :: ' ' :: core, by
        rw [render_sq_cons2, hcore]; simp⟩

lemma pyStrip_seg (toks : List (List Char)) :
    pyStrip (' ' :: '[' :: render_items_sq toks) = '[' :: render_items_sq toks := by
  rcases render_sq_ends toks with ⟨core, hcore⟩
  unfold pyStrip
  rw [List.dropWhile_cons]
  simp only [show Char.isWhitespace ' ' = true by decide, if_true]
  rw [List.dropWhile_cons]
  simp only [show Char.isWhitespace '[' = false by decide, if_false, Bool.false_eq_true]
  rw [hcore]
  rw [show ('[' :: (core ++ [']'])).reverse = ']' :: (core.reverse ++ ['[']) by simp]
  rw [List.dropWhile_cons]
  simp only [show Char.isWhitespace ']' = false by decide, if_false, Bool.false_eq_true]
  simp

lemma map_quoteRepl_id {t : List Char} (h : '\'' ∉ t) : t.map quoteRepl = t := by
  induction t with
  | nil => rfl
  | cons c t' ih =>
    have hc : c ≠ '\'' := fun he => h (he ▸ List.mem_cons_self c t')
    have ht' : '\'' ∉ t' := fun hm => h (List.mem_cons_of_mem c hm)
    simp [quoteRepl, hc, ih ht']

lemma map_quoteRepl_render {toks : List (List Char)} (h : ∀ t ∈ toks, tok_ok t) :
    (render_items_sq toks).map quoteRepl = render_items_dq toks := by
  induction toks with
  | nil => rfl
  | cons t ts ih =>
    have ht := (h t (List.mem_cons_self t ts)).1
    have hts : ∀ x ∈ ts, tok_ok x := fun x hx => h x (List.mem_cons_of_mem t hx)
    cases ts with
    | nil =>
      show (('\'' :: t ++ '\'' :: [']']).map quoteRepl) = '"' :: t ++ '"' :: [']']
      simp [quoteRepl, map_quoteRepl_id ht]
    | cons t2 ts' =>
      rw [render_sq_cons2, render_dq_cons2]
      simp only [List.map_cons, List.map_append]
      rw [map_quoteRepl_id ht, ← ih hts]
      simp [quoteRepl]

lemma render_dq_decomp (t : List Char) (ts : List (List Char)) :
    ∃ mid, render_items_dq (t :: ts) = '"' :: mid ++ ['"', ']'] := by
  induction ts generalizing t with
  | nil => exact ⟨t, by simp [render_items_dq]⟩
  | cons t2 ts' ih =>
    rcases ih t2 with ⟨mid', hmid'⟩
    refine ⟨t ++ '"' :: ',' :: ' ' :: '"' :: mid', ?_⟩
    rw [render_dq_cons2, hmid']
    simp

lemma wrap_strip_render (toks : List (List Char)) :
    '[' :: (stripBrackets ('[' :: render_items_dq toks) ++ [']']) =
      '[' :: render_items_dq toks := by
  cases toks with
  | nil => rfl
  | cons t ts =>
    rcases render_dq_decomp t ts with ⟨mid, hmid⟩
    rw [hmid]
    unfold stripBrackets
    have e1 : List.dropWhile isBracket ('[' :: ('"' :: mid ++ ['"', ']'])) =
        '"' :: mid ++ ['"', ']'] := by
      simp [List.dropWhile_cons, show isBracket '[' = true from by decide,
        show isBracket '"' = false from by decide]
    rw [e1]
    have e2 : (('"' :: mid ++ ['"', ']']).reverse).dropWhile isBracket =
        '"' :: (mid.reverse ++ ['"']) := by
      rw [show ('"' :: mid ++ ['"', ']']).reverse =
        ']' :: '"' :: (mid.reverse ++ ['"']) by simp]
      simp [List.dropWhile_cons, show isBracket ']' = true from by decide,
        show isBracket '"' = false from by decide]
    rw [e2]
    simp

lemma evalListAux_token (t : List Char) (ht : '"' ∉ t) :
    ∀ (rest cur : List Char) (acc : List (List Char)),
      evalListAux EvalSt.inStr (t ++ '"' :: rest) cur acc =
        evalListAux EvalSt.afterStr rest [] ((cur.reverse ++ t) :: acc) := by
  induction t with
  | nil =>
    intro rest cur acc
    rw [show ([] : List Char) ++ '"' :: rest = '"' :: rest from rfl, evalListAux]
    simp
  | cons c t' ih =>
    intro rest cur acc
    have hc : c ≠ '"' := fun he => ht (he ▸ List.mem_cons_self c t')
    have ht' : '"' ∉ t' := fun hm => ht (List.mem_cons_of_mem c hm)
    rw [show (c :: t') ++ '"' :: rest = c :: (t' ++ '"' :: rest) from rfl, evalListAux]
    simp only [hc, if_false]
    rw [ih ht' rest (c :: cur) acc]
    simp

lemma evalListAux_items :
    ∀ (ts : List (List Char)) (t : List Char) (acc : List (List Char)),
      '"' ∉ t → (∀ x ∈ ts, '"' ∉ x) →
      evalListAux EvalSt.afterOpen (render_items_dq (t :: ts)) [] acc =
          some (acc.reverse ++ t :: ts) ∧
      evalListAux EvalSt.afterComma (render_items_dq (t :: ts)) [] acc =
          some (acc.reverse ++ t :: ts) := by
  intro ts
  induction ts with
  | nil =>
    intro t acc ht _
    have hrw : render_items_dq [t] = '"' :: (t ++ '"' :: [']']) := by
      simp [render_items_dq]
    rw [hrw]
    constructor
    · rw [evalListAux]
      simp only [show Char.isWhitespace '"' = false from by decide, if_false,
        Bool.false_eq_true, if_true, if_pos rfl]
      rw [evalListAux_token t ht [']'] [] acc]
      rw [evalListAux]
      simp only [show Char.isWhitespace ']' = false from by decide,
        show (']' : Char) ≠ ',' from by decide, show (']' : Char) = ']' from rfl,
        Bool.false_eq_true, if_false, if_true]
      rw [evalListAux]
      simp
    · rw [evalListAux]
      simp only [show Char.isWhitespace '"' = false from by decide, if_false,
        Bool.false_eq_true, if_true, if_pos rfl]
      rw [evalListAux_token t ht [']'] [] acc]
      rw [evalListAux]
      simp only [show Char.isWhitespace ']' = false from by decide,
        show (']' : Char) ≠ ',' from by decide, show (']' : Char) = ']' from rfl,
        Bool.false_eq_true, if_false, if_true]
      rw [evalListAux]
      simp
  | cons t2 ts' ih =>
    intro t acc ht hts
    have ht2 : '"' ∉ t2 := hts t2 (List.mem_cons_self t2 ts')
    have hts' : ∀ x ∈ ts', '"' ∉ x := fun x hx => hts x (List.mem_cons_of_mem t2 hx)
    have hrw : render_items_dq (t :: t2 :: ts') =
        '"' :: (t ++ '"' :: ',' :: ' ' :: render_items_dq (t2 :: ts')) := by
      rw [render_dq_cons2]
      simp
    rw [hrw]
    have hstep : ∀ st : EvalSt, st = EvalSt.afterOpen ∨ st = EvalSt.afterComma →
        evalListAux st ('"' :: (t ++ '"' :: ',' :: ' ' :: render_items_dq (t2 :: ts'))) [] acc =
          some (acc.reverse ++ t :: t2 :: ts') := by
      intro st hst
      have h1 : evalListAux st ('"' :: (t ++ '"' :: ',' :: ' ' :: render_items_dq (t2 :: ts'))) [] acc =
          evalListAux EvalSt.inStr (t ++ '"' :: ',' :: ' ' :: render_items_dq (t2 :: ts')) [] acc := by
        rcases hst with rfl | rfl
        · rw [evalListAux]
          simp [show Char.isWhitespace '"' = false from by decide]
        · rw [evalListAux]
          simp [show Char.isWhitespace '"' = false from by decide]
      rw [h1, evalListAux_token t ht _ [] acc]
      rw [evalListAux]
      simp only [show Char.isWhitespace ',' = false from by decide,
        show ((',' : Char) = ',') from rfl, Bool.false_eq_true, if_false, if_true]
      rw [evalListAux]
      simp only [show Char.isWhitespace ' ' = true from by decide, if_true]
      have hih := (ih t2 (t :: acc) ht2 hts').2
      simp only [List.reverse_nil, List.nil_append]
      rw [hih]
      simp
    exact ⟨hstep EvalSt.afterOpen (Or.inl rfl), hstep EvalSt.afterComma (Or.inr rfl)⟩

lemma evalPyList_render (toks : List (List Char)) (h : ∀ x ∈ toks, '"' ∉ x) :
    evalPyList ('[' :: render_items_dq toks) = some toks := by
  unfold evalPyList
  rw [List.dropWhile_cons]
  simp only [show Char.isWhitespace '[' = false from by decide, Bool.false_eq_true, if_false]
  cases toks with
  | nil =>
    rw [show render_items_dq [] = [']'] from rfl, evalListAux]
    simp [evalListAux, show Char.isWhitespace ']' = false from by decide]
  | cons t ts =>
    exact (evalListAux_items ts t [] (h t (List.mem_cons_self t ts))
      (fun x hx => h x (List.mem_cons_of_mem t hx))).1

lemma filter_marker (pre toks : List (List Char))
    (hpre : ∀ l ∈ pre, containsSub seq_marker l = false) :
    (pre ++ [mk_seq_line toks]).filter (fun l => containsSub seq_marker l) =
      [mk_seq_line toks] := by
  rw [List.filter_append]
  have h1 : pre.filter (fun l => containsSub seq_marker l) = [] := by
    rw [List.filter_eq_nil_iff]
    intro a ha
    simp [hpre a ha]
  rw [h1]
  simp [seq_marker_in_mk]

/-- Exact behaviour of the sequence parser on a reply built from free lines
`pre` (marker-free, newline-free) followed by a well-formed decision line
over hygienic tokens: the parse is the token list itself when every token is
valid, and the `["wait"]` default otherwise. -/
lemma parse_seq_render (pre toks : List (List Char))
    (hpre1 : ∀ l ∈ pre, '\n' ∉ l)
    (hpre2 : ∀ l ∈ pre, containsSub seq_marker l = false)
    (htoks : ∀ t ∈ toks, tok_ok t) :
    parse_action_sequence (build_seq_reply pre toks) =
      (if toks.all (fun a => valid_actions.contains a) then
        (toks, some (build_seq_reply pre toks))
      else ([str "wait"], none)) := by
  have hlines : pyLines (build_seq_reply pre toks) = pre ++ [mk_seq_line toks] := by
    apply pyLines_joinLines
    · simp
    · intro l hl
      rcases List.mem_append.mp hl with h1 | h1
      · exact hpre1 l h1
      · simp at h1
        exact h1 ▸ mk_seq_line_no_nl htoks
  have e1 : ((pyLines (build_seq_reply pre toks)).filter
      (fun l => containsSub seq_marker l)).getLast? = some (mk_seq_line toks) := by
    rw [hlines, filter_marker pre toks hpre2]
    rfl
  rw [parse_action_sequence]
  simp only [e1]
  simp only [segAfter_mk htoks, pyStrip_seg, List.map_cons, map_quoteRepl_render htoks,
    show quoteRepl '[' = '[' from rfl, wrap_strip_render,
    evalPyList_render toks (fun x hx => (htoks x hx).2.1)]

/-- C1 counterexample: case-insensitivity fails in sequence mode.  The reply
`"action sequence: ['up']"` carries a well-formed decision line whose only
token is `up`, but with the marker in lower case the parser returns the
`["wait"]` default instead of `["up"]`; likewise the spec's own scenario line
`"Action Sequence: [up, up, right]"` (unquoted tokens, §8 of the spec) makes
`eval` fail and also yields `["wait"]`. -/
theorem c1_counterexample :
    parse_action_sequence (str "action sequence: ['up']") = ([str "wait"], none) ∧
    (parse_action_sequence (str "action sequence: ['up']")).1 ≠ [str "up"] ∧
    parse_action_sequence (str "Action Sequence: [up, up, right]") =
      ([str "wait"], none) := by
  refine ⟨by decide, by decide, by decide⟩

/-- C8 counterexample: the ActionSequence produced from the reply
`"Action Sequence: []"` is the empty list (paired with the response text, so
it is a *successful* parse), refuting length ≥ 1. -/
theorem c8_counterexample :
    parse_action_sequence (str "Action Sequence: []") =
      ([], some (str "Action Sequence: []")) ∧
    ((parse_action_sequence (str "Action Sequence: []")).1).length = 0 := by
  refine ⟨by decide, by decide⟩

/-- C8 amended: every *failed or defaulted* parse yields the non-empty
`["wait"]` (a `None` second component always comes with `["wait"]`), but a
successful parse returns the literal bracket list, which is empty exactly
when the reply's decision line is `Action Sequence: []`; so length ≥ 1 holds
for every result except an explicitly empty, fully valid list. -/
theorem c8_default_is_wait (resp : List Char) :
    ((parse_action_sequence resp).2 = none →
      (parse_action_sequence resp).1 = [str "wait"]) ∧
    ((parse_action_sequence resp).1 = [] →
      (parse_action_sequence resp).2 = some resp) := by
  rcases parse_shape resp with h | ⟨toks, h, _⟩
  · refine ⟨fun _ => by rw [h], fun hemp => ?_⟩
    rw [h] at hemp
    simp [str] at hemp
  · refine ⟨fun hsnd => ?_, fun _ => by rw [h]⟩
    rw [h] at hsnd
    simp at hsnd

/-- Witness for C8 at a markerless reply: the parse defaults and the result
is the one-element `["wait"]`. -/
theorem c8_witness :
    (parse_action_sequence (str "I will explore.")).1 = [str "wait"] :=
  (c8_default_is_wait (str "I will explore.")).1 (by decide)

/-- C7 counterexample: a decision line mixing the recognized token `up` with
the unrecognized token `jump` does not drop only `jump` — the whole sequence
is rejected and the default `["wait"]` is returned, discarding `up` too. -/
theorem c7_counterexample :
    parse_action_sequence (str "Action Sequence: ['up', 'jump']") =
      ([str "wait"], none) ∧
    (parse_action_sequence (str "Action Sequence: ['up', 'jump']")).1 ≠ [str "up"] := by
  refine ⟨by decide, by decide⟩

/-- C7 amended: in sequence mode validation is all-or-nothing — if any token
of the decision line is unrecognized the entire sequence is discarded in
favour of `["wait"]` (no token is ever substituted, but recognized tokens are
not kept either); in single-action mode unrecognized tokens are ignored and
the extractor returns the first *valid* action in the fixed priority order
`up,down,left,right,a,b,start,select,wait` found among the line's tokens,
which need not be the line's first recognized token (`"selected action: b a"`
yields `a`, not `b`). -/
theorem c7_unrecognized_tokens (pre toks : List (List Char))
    (hpre1 : ∀ l ∈ pre, '\n' ∉ l)
    (hpre2 : ∀ l ∈ pre, containsSub seq_marker l = false)
    (htoks : ∀ t ∈ toks, tok_ok t)
    (hbad : ∃ t ∈ toks, t ∉ valid_actions) :
    parse_action_sequence (build_seq_reply pre toks) = ([str "wait"], none) ∧
    extract_action_from_response (str "selected action: b a") = str "a" := by
  constructor
  · rw [parse_seq_render pre toks hpre1 hpre2 htoks]
    have hall : toks.all (fun a => valid_actions.contains a) = false := by
      rcases hbad with ⟨t, ht, hnv⟩
      apply List.all_eq_false.mpr
      refine ⟨t, ht, ?_⟩
      intro hcon
      exact hnv (by simpa [List.contains] using hcon)
    rw [hall]
    simp
  · decide

/-- Witness for C7: reply `"Action Sequence: ['up', 'jump']"` built from the
decision line over tokens `up` (recognized) and `jump` (unrecognized). -/
theorem c7_witness :
    parse_action_sequence (build_seq_reply [] [str "up", str "jump"]) =
      ([str "wait"], none) ∧
    extract_action_from_response (str "selected action: b a") = str "a" :=
  c7_unrecognized_tokens [] [str "up", str "jump"]
    (by simp) (by simp)
    (by intro t ht; fin_cases ht <;> exact ⟨by decide, by decide, by decide, by decide⟩)
    ⟨str "jump", by simp, by decide⟩

/-! ## Structured-scan lemmas for the single-action extractor -/

lemma line_action_none_of_no_ind {ind l : List Char} (h : containsSub ind l = false) :
    line_action ind l = none := by
  unfold line_action
  rw [h]
  simp

lemma search_lines_skip (ind : List Char) (pre : List (List Char)) (al : List Char)
    (hpre : ∀ l ∈ pre, containsSub ind l = false) :
    search_lines ind (pre ++ [al]) = line_action ind al := by
  induction pre with
  | nil =>
    rw [List.nil_append, search_lines]
    cases h : line_action ind al <;> simp [h, search_lines]
  | cons l pre' ih =>
    rw [List.cons_append, search_lines]
    simp only [line_action_none_of_no_ind (hpre l (List.mem_cons_self l pre'))]
    exact ih (fun x hx => hpre x (List.mem_cons_of_mem l hx))

lemma line_action_some {ind l a : List Char} (h : line_action ind l = some a) :
    a ∈ valid_actions ∧ a <:+: l := by
  unfold line_action at h
  cases hc : containsSub ind l with
  | false => rw [hc] at h; simp at h
  | true =>
    rw [hc] at h
    simp only [if_true] at h
    refine ⟨List.mem_of_find?_eq_some h, ?_⟩
    have hp := List.find?_some h
    have hmem : a ∈ wsSplit (pyStrip (segAfterFirst ind l)) := by
      simpa [List.contains] using hp
    exact (mem_wsSplit_sub hmem).trans ((pyStrip_sub _).trans (segAfterFirst_sub ind l))

lemma search_lines_none {lower : List Char} (ind : List Char)
    (h : ∀ a ∈ valid_actions, containsSub a lower = false) :
    ∀ L : List (List Char), (∀ l ∈ L, l <:+: lower) → search_lines ind L = none := by
  intro L
  induction L with
  | nil => intro _; rfl
  | cons l ls ih =>
    intro hL
    rw [search_lines]
    cases hla : line_action ind l with
    | some a =>
      exfalso
      rcases line_action_some hla with ⟨hmem, hsub⟩
      have hc : containsSub a lower = true := by
        rw [containsSub_iff_occ]
        exact hsub.trans (hL l (List.mem_cons_self l ls))
      rw [h a hmem] at hc
      simp at hc
    | none =>
      exact ih (fun x hx => hL x (List.mem_cons_of_mem l hx))

lemma first_indicator_none {lower : List Char}
    (h : ∀ a ∈ valid_actions, containsSub a lower = false) :
    ∀ inds : List (List Char),
      first_indicator_hit lower (pyLines lower) inds = none := by
  intro inds
  induction inds with
  | nil => rfl
  | cons ind inds' ih =>
    rw [first_indicator_hit]
    have hs : search_lines ind (pyLines lower) = none :=
      search_lines_none ind h (pyLines lower) (fun l hl => mem_pyLines_sub hl)
    cases hc : containsSub ind lower <;> simp [hc, hs, ih]

/-- C6 amended: for every reply with no recognized sequence marker on any
line and no valid action token occurring anywhere in the lowered text, both
engines return the default: the sequence parse is `(["wait"], None)` and the
single-action extraction is `"wait"`.  (The spec's concrete example reply is
excluded: it *does* contain the token `a` as a substring, see the
counterexample.) -/
theorem c6_no_marker_no_token (resp : List Char)
    (hmark : ∀ l ∈ pyLines resp, containsSub seq_marker l = false)
    (htok : ∀ a ∈ valid_actions, containsSub a (pyLower resp) = false) :
    parse_action_sequence resp = ([str "wait"], none) ∧
    extract_action_from_response resp = str "wait" := by
  constructor
  · rw [parse_action_sequence]
    have hfil : (pyLines resp).filter (fun l => containsSub seq_marker l) = [] := by
      rw [List.filter_eq_nil_iff]
      intro l hl
      simp [hmark l hl]
    rw [hfil]
    rfl
  · rw [extract_action_from_response]
    rw [first_indicator_none htok action_indicators]
    have hf : valid_actions.find? (fun a => containsSub a (pyLower resp)) = none :=
      List.find?_eq_none.mpr (fun a ha => by simp [htok a ha])
    rw [hf]

/-- C6 counterexample: the spec's example reply
`"I think the player should proceed."` does contain a valid token as a
substring — the single character `a` inside `"player"` — so the single-action
extractor returns `"a"`, not `"wait"`; only the sequence parser (which has no
whole-text fallback scan) returns the default on this reply. -/
theorem c6_counterexample :
    extract_action_from_response (str "I think the player should proceed.") = str "a" ∧
    extract_action_from_response (str "I think the player should proceed.") ≠ str "wait" ∧
    parse_action_sequence (str "I think the player should proceed.") =
      ([str "wait"], none) :=
  ⟨by decide, by decide, by decide⟩

/-- Witness for C6 at the reply `"???"`: no marker line and no token
substring, so both engines default. -/
theorem c6_witness :
    parse_action_sequence (str "???") = ([str "wait"], none) ∧
    extract_action_from_response (str "???") = str "wait" :=
  c6_no_marker_no_token (str "???") (by decide) (by decide)

/-- C1 amended: parsing returns exactly the decision line's token/sequence,
with the case rules the code actually implements.  Sequence mode: for every
reply ending in a decision line `Action Sequence: ['t1', 't2', ...]` whose
marker appears in exactly that capitalization and whose quoted tokens are all
(lower-case) members of the valid-action set, the parse is exactly that
sequence (first conjunct; earlier lines may be arbitrary newline-free,
marker-free text).  Single-action mode is genuinely case-insensitive: for
every reply whose lowered text consists of lines without the `action:`
indicator followed by a final `selected action: t` line with `t` a valid
token, extraction returns exactly `t`, whatever the original capitalization
of marker or token was. -/
theorem c1_marker_line_parsing :
    (∀ pre toks : List (List Char), (∀ l ∈ pre, '\n' ∉ l) →
      (∀ l ∈ pre, containsSub seq_marker l = false) →
      (∀ t ∈ toks, t ∈ valid_actions) →
      parse_action_sequence (build_seq_reply pre toks) =
        (toks, some (build_seq_reply pre toks))) ∧
    (∀ (resp : List Char) (pre : List (List Char)) (t : List Char),
      pyLines (pyLower resp) = pre ++ [str "selected action: " ++ t] →
      (∀ l ∈ pre, containsSub (str "action:") l = false) →
      t ∈ valid_actions →
      extract_action_from_response resp = t) := by
  constructor
  · intro pre toks h1 h2 h3
    have htoks : ∀ x ∈ toks, tok_ok x := fun x hx => valid_actions_tok_ok x (h3 x hx)
    rw [parse_seq_render pre toks h1 h2 htoks]
    have hall : toks.all (fun a => valid_actions.contains a) = true := by
      apply List.all_eq_true.mpr
      intro x hx
      simpa [List.contains] using h3 x hx
    rw [hall]
    simp
  · intro resp pre t hlines hpre ht
    have hline_act : line_action (str "action:") (str "selected action: " ++ t) = some t := by
      fin_cases ht <;> decide
    have hal_sub : (str "selected action: " ++ t) <:+: pyLower resp := by
      apply mem_pyLines_sub
      rw [hlines]
      simp
    have hdec : str "selected action: " ++ t =
        str "selected " ++ (str "action:" ++ (' ' :: t)) := by
      rw [show str "selected " ++ (str "action:" ++ (' ' :: t)) =
        (str "selected " ++ str "action:" ++ [' ']) ++ t by simp]
      rw [show str "selected " ++ str "action:" ++ [' '] = str "selected action: "
        from by decide]
    have hguard : containsSub (str "action:") (pyLower resp) = true := by
      apply containsSub_of_sub _ hal_sub
      rw [containsSub_iff]
      exact ⟨str "selected ", ' ' :: t, by rw [hdec]; simp⟩
    rw [extract_action_from_response]
    rw [show action_indicators = str "action:" :: [str "chosen action:",
      str "selected action:", str "recommended action:"] from rfl]
    rw [first_indicator_hit, hlines]
    rw [if_pos hguard, search_lines_skip _ pre _ hpre, hline_act]

/-- Witness for C1: a two-line sequence reply parses to `["up", "a"]`, and a
mixed-case single-action reply `"Selected Action: UP"` extracts to `up`. -/
theorem c1_witness :
    parse_action_sequence (build_seq_reply [str "Decision:"] [str "up", str "a"]) =
      ([str "up", str "a"],
        some (build_seq_reply [str "Decision:"] [str "up", str "a"])) ∧
    extract_action_from_response (str "Current Analysis:\nSelected Action: UP") =
      str "up" := by
  constructor
  · exact c1_marker_line_parsing.1 [str "Decision:"] [str "up", str "a"]
      (by decide) (by decide) (by decide)
  · exact c1_marker_line_parsing.2 (str "Current Analysis:\nSelected Action: UP")
      [str "current analysis:"] (str "up") (by decide) (by decide) (by decide)
